import Mathlib

/-!
Verification of the spacer/qe core of this repository against its
natural-language specification.  Definitions are shallow embeddings of the
C++ sources (`spacer_util.h`, `spacer_context.h`,
`spacer_smt_context_manager.cpp`, `qe_term_graph.cpp`); machine unsigned
integers are modelled as `Nat` restricted to the representable range
`[0, UINT_MAX]`, with overflow made explicit where the source relies on it.
Components whose implementation is not part of the sources here (the
`pob_lt` comparator body, the top-level solve loop, the lemma bookkeeping
of `spacer_context.cpp`) are modelled from the specification and marked as
such in their doc comments.
-/

/- ===================== Levels (spacer_util.h) ===================== -/

/-- The largest value of a C `unsigned` (32-bit on all supported platforms);
`UINT_MAX` in the source. -/
def UINT_MAX : Nat := 2 ^ 32 - 1

/-- Embedding of `spacer::infty_level`: the distinguished infinity level is
represented as `UINT_MAX`. -/
def infty_level : Nat := UINT_MAX

/-- Embedding of `spacer::is_infty_level`. -/
def is_infty_level (lvl : Nat) : Bool := lvl = infty_level

/-- Embedding of `spacer::next_level`: identity on the infinity level,
successor otherwise.  For every valid `unsigned` input (`lvl ≤ UINT_MAX`)
the C expression `lvl + 1` does not overflow because the infinity case is
guarded, so plain `Nat` successor is faithful. -/
def next_level (lvl : Nat) : Nat := if is_infty_level lvl then lvl else lvl + 1

/-- Embedding of `spacer::prev_level`: identity on infinity, zero at zero,
predecessor otherwise. -/
def prev_level (lvl : Nat) : Nat :=
  if is_infty_level lvl then infty_level
  else if lvl = 0 then 0
  else lvl - 1

/- ============ Lemma level classification (spacer_context.h) ============ -/

/-- The level-relevant data of a committed `spacer::lemma`: its formula is
abstracted by an identifier, and `m_lvl` is its current level. -/
structure CLemma where
  exprId : Nat
  lvl : Nat
deriving DecidableEq, Repr

/-- Embedding of `lemma::is_inductive`: a lemma is inductive exactly when
its current level is the infinity level. -/
def CLemma.is_inductive (lm : CLemma) : Bool := is_infty_level lm.lvl

/- ============== Frame queries (spacer_context.h, frames) ============== -/

/-- One entry of `frames::m_lemmas`: a lemma abstracted to its formula
identifier and recorded level. -/
structure FrameLemma where
  expr : Nat
  lvl : Nat
deriving DecidableEq, Repr

/-- Embedding of `frames::get_frame_geq_lemmas`: walk `m_lemmas` in order
and emit the formula of every lemma whose recorded level is at least
`level`. -/
def get_frame_geq_lemmas : List FrameLemma → Nat → List Nat
  | [], _ => []
  | lm :: rest, level =>
    if lm.lvl ≥ level then lm.expr :: get_frame_geq_lemmas rest level
    else get_frame_geq_lemmas rest level

/-- Embedding of `frames::get_frame_lemmas`: emit the formula of every
lemma whose recorded level equals `level`. -/
def get_frame_lemmas : List FrameLemma → Nat → List Nat
  | [], _ => []
  | lm :: rest, level =>
    if lm.lvl = level then lm.expr :: get_frame_lemmas rest level
    else get_frame_lemmas rest level

/- ============== Obligation queue (spacer_context.h, pob_queue) ============== -/

/-- The queue-relevant data of a `spacer::pob`: its level, its depth and
its `m_open` flag. -/
structure QPob where
  level : Nat
  depth : Nat
  isOpen : Bool
deriving DecidableEq, Repr

/-- Embedding of `spacer::pob_queue`: the root reference, the level
ceiling `m_max_level`, the depth floor `m_min_depth` and the contents of
the priority queue `m_obligations` (as a list; heap layout is irrelevant
to the claims). -/
structure PobQueue where
  root : Option QPob
  maxLevel : Nat
  minDepth : Nat
  obligations : List QPob
deriving DecidableEq, Repr

/-- Embedding of `pob_queue::inc_level`: increment `m_max_level` and
`m_min_depth`; if a root is set and the queue is empty, push the root. -/
def PobQueue.incLevel (q : PobQueue) : PobQueue :=
  { q with
    maxLevel := q.maxLevel + 1
    minDepth := q.minDepth + 1
    obligations :=
      match q.root with
      | some r => if q.obligations = [] then r :: q.obligations else q.obligations
      | none => q.obligations }

/- ============== Solver pool (spacer_smt_context_manager.cpp) ============== -/

/-- Embedding of `spacer::smt_context_manager`: the pool bound
`m_max_num_contexts`, the call counter `m_num_contexts` and the number of
allocated factories (the length of `m_solvers`; factories are identified
by their index in that vector). -/
structure SCM where
  maxNumContexts : Nat
  numContexts : Nat
  numSolvers : Nat
deriving DecidableEq, Repr

/-- Embedding of `smt_context_manager::mk_fresh`: increment the call
counter; allocate a fresh factory while the pool is below its bound (or
the bound is zero), otherwise reuse the factory at index
`(m_num_contexts - 1) % m_max_num_contexts`.  The result records whether
a factory was allocated and the index of the factory used. -/
def SCM.mkFresh (s : SCM) : SCM × (Bool × Nat) :=
  let n := s.numContexts + 1
  if s.maxNumContexts = 0 ∨ s.numSolvers < s.maxNumContexts then
    ({ s with numContexts := n, numSolvers := s.numSolvers + 1 },
     (true, s.numSolvers))
  else
    ({ s with numContexts := n }, (false, (n - 1) % s.maxNumContexts))

/-- The manager as built by `smt_context_manager`'s constructor. -/
def SCM.start (maxNumContexts : Nat) : SCM :=
  { maxNumContexts := maxNumContexts, numContexts := 0, numSolvers := 0 }

/-- The manager state after `k` calls to `mk_fresh` on a manager
constructed with bound `maxNumContexts`. -/
def SCM.afterCalls (maxNumContexts : Nat) : Nat → SCM
  | 0 => SCM.start maxNumContexts
  | k + 1 => (SCM.afterCalls maxNumContexts k).mkFresh.1

/-- The result (allocated?, factory index) of the `k`-th call to
`mk_fresh` (1-based) on a manager constructed with bound
`maxNumContexts`. -/
def SCM.callResult (maxNumContexts k : Nat) : Bool × Nat :=
  ((SCM.afterCalls maxNumContexts (k - 1)).mkFresh).2

/- ============== Root preference order (qe_term_graph.cpp) ============== -/

/-- The data of a `qe::term` consulted by `term_graph::term_lt`: the number
of arguments of the underlying expression, whether the manager classifies
it as an interpreted value (`m.is_value`), its expression identifier, and
the node count that `get_num_exprs` returns for it. -/
structure TermData where
  numArgs : Nat
  isValue : Bool
  id : Nat
  numExprs : Nat
deriving DecidableEq, Repr

/-- Embedding of `term_graph::term_lt` exactly as written in the source:
when either side has zero arguments, compare argument counts, then value
status (a non-value precedes a value), then identifiers; otherwise the
source computes both `sz1` and `sz2` from `t1` (`get_num_exprs(t1.get_expr())`
on both lines) and returns `sz1 < sz2`. -/
def term_lt (t1 t2 : TermData) : Bool :=
  if t1.numArgs = 0 ∨ t2.numArgs = 0 then
    if t1.numArgs = t2.numArgs then
      if t1.isValue = t2.isValue then t1.id < t2.id
      else t2.isValue
    else t1.numArgs < t2.numArgs
  else
    let sz1 := t1.numExprs
    let sz2 := t1.numExprs
    sz1 < sz2

/- ============== Obligation queue ordering (pob_lt / pob_queue) ============== -/

/-- A proof obligation as seen by the queue order: its (level, depth)
pair. -/
structure OPob where
  level : Nat
  depth : Nat
deriving DecidableEq, Repr

/-- Modelled from the spec: the body of `pob_lt::operator()` is not among
the sources here (only its declaration in `spacer_context.h` is); the spec
says the queue is "a priority structure ordered first by ascending level,
then by ascending depth", so `pob_lt` is the strict lexicographic order on
(level, depth). -/
def pob_lt (p q : OPob) : Bool :=
  p.level < q.level ∨ (p.level = q.level ∧ p.depth < q.depth)

/-- Extraction of a least element under `pob_lt` from a non-empty queue:
`std::priority_queue` over `pob_ref_gt` (the reverse of `pob_lt`) pops a
least element under `pob_lt`; the scan keeps the current candidate and
replaces it whenever a strictly smaller element appears, returning the
minimum together with the remaining elements. -/
def selectMin : OPob → List OPob → OPob × List OPob
  | p, [] => (p, [])
  | p, q :: qs =>
    if pob_lt q p then
      ((selectMin q qs).1, p :: (selectMin q qs).2)
    else
      ((selectMin p qs).1, q :: (selectMin p qs).2)

/-- Pop a least element under `pob_lt` from the queue contents, returning
it with the remaining contents (`none` on an empty queue). -/
def popMin : List OPob → Option (OPob × List OPob)
  | [] => none
  | p :: ps => some (selectMin p ps)

/-- One interaction with the obligation queue: a push of a pob or a pop. -/
inductive QOp where
  | push (p : OPob)
  | pop
deriving DecidableEq, Repr

/-- A run of the obligation queue: execute the interactions in order
starting from the given queue contents and record the sequence of popped
obligations (a pop on an empty queue records nothing, as nothing is
dequeued). -/
def runQueue : List QOp → List OPob → List OPob
  | [], _ => []
  | QOp.push p :: ops, q => runQueue ops (p :: q)
  | QOp.pop :: ops, q =>
    match popMin q with
    | none => runQueue ops q
    | some (m, rest) => m :: runQueue ops rest

/- ============== Top-level solve loop (context::solve_core) ============== -/

/-- The three-valued oracle/solver answer (`lbool`): sat, unsat or
unknown. -/
inductive LB where
  | t
  | f
  | u
deriving DecidableEq, Repr

/-- A proof obligation as seen by the solve loop: level and depth. -/
structure SPob where
  level : Nat
  depth : Nat
deriving DecidableEq, Repr

/-- Modelled from the spec: the top-level solve loop (`context::solve_core`
and `context::check_reachability` of `spacer_context.cpp` are not among
the sources here; only their declarations are).  Following spec section
4.5 and section 7, each iteration pops the head obligation and consults
the reachability oracle, consuming one answer from the answer stream:
`unsat` learns a blocking lemma and closes the obligation; `sat` on an
obligation at level 0 is a concrete counterexample and the search reports
sat, otherwise a child one level deeper is spawned and the obligation is
kept behind it; `unknown` aborts the whole search with the overall verdict
unknown, and exhaustion of the answer stream or of the fuel is resource
exhaustion, also unknown.  An empty queue means the search closed every
obligation and reports unsat.  The result is the overall verdict together
with the number of oracle answers consumed. -/
def solveLoop : Nat → List SPob → List LB → LB × Nat
  | 0, _, _ => (LB.u, 0)
  | _ + 1, [], _ => (LB.f, 0)
  | _ + 1, _ :: _, [] => (LB.u, 0)
  | fuel + 1, p :: q, a :: rest =>
    match a with
    | LB.u => (LB.u, 1)
    | LB.f =>
      let r := solveLoop fuel q rest
      (r.1, r.2 + 1)
    | LB.t =>
      if p.level = 0 then (LB.t, 1)
      else
        let r := solveLoop fuel (⟨p.level - 1, p.depth + 1⟩ :: p :: q) rest
        (r.1, r.2 + 1)

/- ============== Lemma soundness invariant (pred_transformer) ============== -/

/-- Modelled from the spec: a committed lemma of a relation, as a predicate
on an abstract state space together with its recorded level (the
implementation of lemma commitment, `frames::add_lemma` and
`pred_transformer::propagate_to_next_level` in `spacer_context.cpp`, is
not among the sources here; only declarations are). -/
structure SLemma (σ : Type) where
  pred : σ → Bool
  lvl : Nat

/-- Modelled from the spec: the per-relation state relevant to the lemma
soundness invariant — the initial condition `init(R)`, the transition
relation `transition(R)` and the frame set of committed lemmas. -/
structure PredTransformer (σ : Type) where
  init : σ → Bool
  trans : σ → σ → Bool
  frames : List (SLemma σ)

/-- The frame at level `l`: the conjunction of the lemmas whose recorded
level is at least `l` (spec section 3; this matches
`frames::get_frame_geq_lemmas`). -/
def frameAt {σ : Type} (pt : PredTransformer σ) (l : Nat) (s : σ) : Prop :=
  ∀ lm ∈ pt.frames, l ≤ lm.lvl → lm.pred s = true

/-- Refutation-soundness of one lemma relative to a relation (spec
sections 3 and 8): at level 0, `init(R) ∧ ¬L` is unsatisfiable, i.e. every
initial state satisfies the lemma; at level `l+1`,
`frame(R, l) ∧ transition(R) ⇒ L'` is valid. -/
def soundLemma {σ : Type} (pt : PredTransformer σ) (lm : SLemma σ) : Prop :=
  match lm.lvl with
  | 0 => ∀ s, pt.init s = true → lm.pred s = true
  | l + 1 => ∀ s s', frameAt pt l s → pt.trans s s' = true → lm.pred s' = true

/-- The lemma soundness invariant of a relation: every committed lemma is
refutation-sound at its recorded level. -/
def soundFrames {σ : Type} (pt : PredTransformer σ) : Prop :=
  ∀ lm ∈ pt.frames, soundLemma pt lm

/-- Modelled from the spec: committing a lemma inserts it into the frame
set (`frames::add_lemma`; the subsumption no-op case leaves the state
unchanged, so the inserting case is the one modelled). -/
def addLemma {σ : Type} (pt : PredTransformer σ) (lm : SLemma σ) : PredTransformer σ :=
  { pt with frames := lm :: pt.frames }

/-- Raise the level of the lemma at position `i` of a frame set by one. -/
def raiseAt {σ : Type} : List (SLemma σ) → Nat → List (SLemma σ)
  | [], _ => []
  | lm :: rest, 0 => { lm with lvl := lm.lvl + 1 } :: rest
  | lm :: rest, i + 1 => lm :: raiseAt rest i

/-- Modelled from the spec: successful propagation of the lemma at
position `i` bumps its level by one
(`pred_transformer::propagate_to_next_level`: "on success the lemma's
level is bumped"). -/
def propagateAt {σ : Type} (pt : PredTransformer σ) (i : Nat) : PredTransformer σ :=
  { pt with frames := raiseAt pt.frames i }

/- ============== Term graph (qe_term_graph.cpp) ============== -/

/-- Embedding of the mutable state of `qe::term_graph` that `merge` /
`merge_flush` operate on.  Terms are identified with the indices
`0, …, n-1` of `m_terms`; per-term fields of `qe::term` become functions
of the index: `root` (`m_root`), `next` (`m_next`), `csize`
(`m_class_size`), `parents` (`m_parents`), `children` (`m_children`),
`declId` (`get_decl_id`), `marked` (`m_mark`).  `cg` is the content of the
congruence table `m_cg_table` and `mergeQ` the pending merge queue
`m_merge`; `m_merge` is used as a stack (push_back / back / pop_back), so
the queue is modelled with its top at the head of the list.  The display
caches `m_term2app` / `m_pinned` that `merge` resets are not part of the
equivalence structure and are not modelled. -/
structure TG where
  n : Nat
  root : Nat → Nat
  next : Nat → Nat
  csize : Nat → Nat
  parents : Nat → List Nat
  children : Nat → List Nat
  declId : Nat → Nat
  marked : Nat → Bool
  cg : List Nat
  mergeQ : List (Nat × Nat)

/-- Embedding of `term::cg_eq`: two terms are congruent when their
declarations agree and the roots of their children agree pointwise (equal
argument counts included, since the mapped lists must have equal
length). -/
def TG.cgEq (g : TG) (p q : Nat) : Bool :=
  g.declId p == g.declId q &&
    (g.children p).map g.root == (g.children q).map g.root

/-- The fuel-bounded traversal of a `m_next` ring: follow `nx` from `cur`
and collect elements until `stop` is reached (the fuel only serves
termination; on well-formed states the traversal returns to `stop` within
the fuel). -/
def ringAux (nx : Nat → Nat) (stop : Nat) : Nat → Nat → List Nat
  | 0, _ => []
  | fuel + 1, cur => if cur = stop then [] else cur :: ringAux nx stop fuel (nx cur)

/-- The cyclic `m_next` list through `r`: `r` followed by the ring
traversal from `r`'s successor back to `r`, with fuel `n`.  This is the
set of terms visited by loops of the form
`for (it = &r.get_next(); it != &r; it = &it->get_next())` together with
`r` itself. -/
def TG.ring (g : TG) (r : Nat) : List Nat :=
  r :: ringAux g.next r g.n (g.next r)

/-- Embedding of the first loop of `term_graph::merge`: mark each parent
of the absorbed root and erase it from the congruence table
(`m_cg_table.erase` removes the entry matching the key under
`term_eq`). -/
def markAndErase (g : TG) : List Nat → TG
  | [] => g
  | p :: ps =>
    if g.marked p then markAndErase g ps
    else
      markAndErase
        { g with
          marked := fun x => if x = p then true else g.marked x
          cg := g.cg.eraseP (fun q => g.cgEq q p) } ps

/-- Embedding of the last loop of `term_graph::merge`: for every still
marked parent `p` (iterating over the snapshot of the survivor's parent
list), re-insert it into the congruence table (`insert_if_not_there`
returns the already present congruent entry if any, else inserts `p`),
unmark it, append it to the survivor's parent list, and queue the pair
for merging when the roots of `p` and of the table entry differ. -/
def insertParents (g : TG) (a : Nat) : List Nat → TG
  | [] => g
  | p :: ps =>
    if g.marked p then
      let found := g.cg.find? (fun q => g.cgEq q p)
      let pOld := found.getD p
      insertParents
        { g with
          cg := if found.isSome then g.cg else g.cg ++ [p]
          marked := fun x => if x = p then false else g.marked x
          parents := fun x => if x = a then g.parents x ++ [p] else g.parents x
          mergeQ := if g.root p = g.root pOld then g.mergeQ else (p, pOld) :: g.mergeQ }
        a ps
    else insertParents g a ps

/-- The union step of `term_graph::merge` once the two roots `a`
(survivor) and `b` (absorbed) are fixed: erase and mark `b`'s parents,
point the root of every member of `b`'s ring at `a`
(`b->set_root(*a)` plus the ring loop), splice the rings and transfer the
class size (`term::merge_eq_class`: swap `m_next`, add the sizes, zero the
absorbed size). -/
def TG.preMerge (g : TG) (a b : Nat) : TG :=
  let g1 := markAndErase g (g.parents b)
  let rb := g1.ring b
  let g2 := { g1 with root := fun x => if x ∈ rb then a else g1.root x }
  { g2 with
    next := fun x => if x = a then g2.next b else if x = b then g2.next a else g2.next x
    csize := fun x =>
      if x = a then g2.csize a + g2.csize b else if x = b then 0 else g2.csize x }

/-- The whole union step: the state after the parent-marking, root
redirection and ring splice (`preMerge`), followed by the re-insertion of
the survivor's parents into the congruence table. -/
def TG.mergeCore (g : TG) (a b : Nat) : TG :=
  insertParents (g.preMerge a b) a ((g.preMerge a b).parents a)

/-- Embedding of `term_graph::merge`: take the roots of the two terms; if
they coincide nothing changes; otherwise the root with the larger class
is absorbed into the other (the source swaps `a` and `b` when
`a->get_class_size() > b->get_class_size()` and then makes `a` the root
of `b`'s class). -/
def TG.merge (g : TG) (t1 t2 : Nat) : TG :=
  let a0 := g.root t1
  let b0 := g.root t2
  if a0 = b0 then g
  else if g.csize a0 > g.csize b0 then g.mergeCore b0 a0
  else g.mergeCore a0 b0

/-- The root that survives a `merge` of two terms with distinct roots
(the `a` of the source after the conditional swap). -/
def TG.survivor (g : TG) (t1 t2 : Nat) : Nat :=
  if g.csize (g.root t1) > g.csize (g.root t2) then g.root t2 else g.root t1

/-- The root that is absorbed by a `merge` of two terms with distinct
roots (the `b` of the source after the conditional swap). -/
def TG.absorbed (g : TG) (t1 t2 : Nat) : Nat :=
  if g.csize (g.root t1) > g.csize (g.root t2) then g.root t1 else g.root t2

/-- Embedding of `term_graph::merge_flush`: repeatedly take the top of the
pending queue and merge the pair, until the queue is empty (or the fuel,
which only serves termination, runs out). -/
def mergeFlush : Nat → TG → TG
  | 0, g => g
  | fuel + 1, g =>
    match g.mergeQ with
    | [] => g
    | (s, t) :: rest => mergeFlush fuel (TG.merge { g with mergeQ := rest } s t)

/-- Embedding of `term_graph::internalize_eq` specialised to already
internalized arguments (`internalize_term` returns the existing term
without any state change in that case): merge the two terms and flush the
pending merge queue.  The source asserts that the queue is empty on entry
and loops until it is empty again; the fuel bound only serves termination
and the properties proved below do not depend on it. -/
def TG.internalizeEq (g : TG) (t1 t2 : Nat) : TG :=
  mergeFlush (g.n * g.n + g.n + 1) (g.merge t1 t2)

/-- A terminating walk along a successor function: `Trav nx stop cur L`
holds when following `nx` from `cur` reaches `stop` and `L` lists the
nodes visited strictly before `stop`. -/
inductive Trav (nx : Nat → Nat) (stop : Nat) : Nat → List Nat → Prop
  | done : Trav nx stop stop []
  | step {cur : Nat} {L : List Nat} :
      cur ≠ stop → Trav nx stop (nx cur) L → Trav nx stop cur (cur :: L)

/-- Well-formedness of a term-graph state: indices stay in range, root
pointers are idempotent, and for every root the `next` ring through it is
a duplicate-free enumeration of exactly its equivalence class; parent
lists, the congruence table and the pending queue hold valid indices. -/
structure TG.WF (g : TG) : Prop where
  root_lt : ∀ x, x < g.n → g.root x < g.n
  next_lt : ∀ x, x < g.n → g.next x < g.n
  root_idem : ∀ x, x < g.n → g.root (g.root x) = g.root x
  ring_spec : ∀ r, r < g.n → g.root r = r →
    ∃ L, Trav g.next r (g.next r) L ∧ (r :: L).Nodup ∧
      ∀ y, y ∈ r :: L ↔ y < g.n ∧ g.root y = r
  parents_lt : ∀ x, x < g.n → ∀ p ∈ g.parents x, p < g.n
  cg_lt : ∀ p ∈ g.cg, p < g.n
  mergeQ_lt : ∀ pr ∈ g.mergeQ, pr.1 < g.n ∧ pr.2 < g.n

/- ============== Concrete states used by the closed instances ============== -/

/-- A pob queue whose root is set but closed (`m_open = false`) and whose
obligation queue is empty. -/
def qClosedRoot : PobQueue :=
  { root := some ⟨3, 1, false⟩, maxLevel := 5, minDepth := 2, obligations := [] }

/-- A relation over the state space `Bool` with initial states
`s = false`, transition `s → true`, and one committed level-0 lemma
stating that the state is not `true`-and-initial; used to instantiate the
soundness-preservation theorem. -/
def ptW : PredTransformer Bool :=
  { init := fun s => !s
    trans := fun _ s' => s'
    frames := [⟨fun _ => true, 0⟩] }

/-- A two-term graph with two singleton equivalence classes; used to
instantiate the merge theorems. -/
def gW : TG :=
  { n := 2
    root := fun x => x
    next := fun x => x
    csize := fun _ => 1
    parents := fun _ => []
    children := fun _ => []
    declId := fun x => x
    marked := fun _ => false
    cg := []
    mergeQ := [] }

/- ===================== Theorems ===================== -/

/-- C6: levels are totally ordered with the infinity level as greatest
element of the representable range; `next_level` fixes infinity and is
the successor on finite levels, `prev_level` fixes infinity and zero and
is the predecessor on positive finite levels. -/
theorem level_arithmetic_spec :
    next_level infty_level = infty_level ∧
    prev_level 0 = 0 ∧
    (∀ l, l < UINT_MAX → next_level l = l + 1) ∧
    (∀ l, 0 < l → l < UINT_MAX → prev_level l = l - 1) ∧
    prev_level infty_level = infty_level ∧
    (∀ l l', l ≤ UINT_MAX → l' ≤ UINT_MAX → l ≤ l' ∨ l' ≤ l) ∧
    (∀ l, l ≤ UINT_MAX → l ≤ infty_level) := by
  refine ⟨by simp [next_level, is_infty_level], by decide, ?_, ?_, ?_, ?_, ?_⟩
  · intro l hl
    have hne : l ≠ infty_level := by
      simp only [infty_level]; omega
    simp [next_level, is_infty_level, hne]
  · intro l hl0 hl
    have hne : l ≠ infty_level := by
      simp only [infty_level]; omega
    simp [prev_level, is_infty_level, hne]
    omega
  · simp [prev_level, is_infty_level]
  · intro l l' _ _; omega
  · intro l hl; simpa [infty_level] using hl

/-- C10: the infinity level is represented as the largest unsigned value
`UINT_MAX`, so `next_level` of the largest finite level `UINT_MAX - 1`
is the infinity level, and `lemma::is_inductive` holds exactly when the
lemma's level equals this infinity value. -/
theorem infty_level_representation_spec :
    infty_level = UINT_MAX ∧
    next_level (UINT_MAX - 1) = infty_level ∧
    ∀ lm : CLemma, lm.is_inductive = true ↔ lm.lvl = infty_level := by
  refine ⟨rfl, ?_, ?_⟩
  · have hne : UINT_MAX - 1 ≠ infty_level := by
      simp only [infty_level, UINT_MAX]; omega
    simp [next_level, is_infty_level, hne, infty_level, UINT_MAX]
  · intro lm
    simp [CLemma.is_inductive, is_infty_level]

/-- C4: the query for the frame at level `L` returns exactly the lemmas
whose recorded level is at least `L`: a formula is in the result of
`get_frame_geq_lemmas` precisely when some stored lemma carries it with a
recorded level that is at least the queried level. -/
theorem frame_geq_query_spec (fs : List FrameLemma) (level e : Nat) :
    e ∈ get_frame_geq_lemmas fs level ↔
      ∃ lm, lm ∈ fs ∧ lm.expr = e ∧ level ≤ lm.lvl := by
  induction fs with
  | nil => simp [get_frame_geq_lemmas]
  | cons lm rest ih =>
    by_cases h : lm.lvl ≥ level
    · simp only [get_frame_geq_lemmas, if_pos h, List.mem_cons]
      constructor
      · rintro (rfl | he)
        · exact ⟨lm, Or.inl rfl, rfl, h⟩
        · obtain ⟨lm', hmem, he', hlvl⟩ := ih.mp he
          exact ⟨lm', Or.inr hmem, he', hlvl⟩
      · rintro ⟨lm', rfl | hmem, he', hlvl⟩
        · exact Or.inl he'.symm
        · exact Or.inr (ih.mpr ⟨lm', hmem, he', hlvl⟩)
    · simp only [get_frame_geq_lemmas, if_neg h]
      rw [ih]
      constructor
      · rintro ⟨lm', hmem, he', hlvl⟩
        exact ⟨lm', List.mem_cons_of_mem _ hmem, he', hlvl⟩
      · rintro ⟨lm', hmem, he', hlvl⟩
        rcases List.mem_cons.mp hmem with rfl | hmem'
        · exact absurd hlvl h
        · exact ⟨lm', hmem', he', hlvl⟩

/-- C5 counterexample: on a queue whose root is set but closed
(`m_open = false`) and whose obligation queue is empty, `inc_level`
re-enqueues the root even though the root is not open, contradicting the
claim that the root is re-enqueued exactly when the queue has drained and
the root is still open. -/
theorem incLevel_closed_root_counterexample :
    qClosedRoot.obligations = [] ∧
    (∀ r, qClosedRoot.root = some r → r.isOpen = false) ∧
    qClosedRoot.incLevel.obligations = [⟨3, 1, false⟩] := by
  refine ⟨rfl, ?_, rfl⟩
  intro r hr
  cases hr
  rfl

/-- C5 (amended): `inc_level` raises the level ceiling (and the depth
floor) by one, and it pushes the root onto the queue exactly when the
queue is empty and a root is set, irrespective of whether the root is
open. -/
theorem incLevel_spec (q : PobQueue) :
    q.incLevel.maxLevel = q.maxLevel + 1 ∧
    q.incLevel.minDepth = q.minDepth + 1 ∧
    q.incLevel.obligations =
      (match q.root, q.obligations with
       | some r, [] => [r]
       | _, _ => q.obligations) := by
  refine ⟨rfl, rfl, ?_⟩
  rcases q with ⟨root, ml, md, obs⟩
  cases root <;> cases obs <;> simp [PobQueue.incLevel]

/-- State of the solver pool after `k` calls: the bound is kept, the call
counter counts the calls, and the number of allocated factories is the
number of calls capped at the bound. -/
theorem scm_state_after (N : Nat) (hN : 0 < N) (k : Nat) :
    (SCM.afterCalls N k).maxNumContexts = N ∧
    (SCM.afterCalls N k).numContexts = k ∧
    (SCM.afterCalls N k).numSolvers = min k N := by
  induction k with
  | zero => exact ⟨rfl, rfl, by simp [SCM.afterCalls, SCM.start]⟩
  | succ k ih =>
    obtain ⟨hmax, hnum, hsol⟩ := ih
    by_cases hk : k < N
    · have hcond : (SCM.afterCalls N k).maxNumContexts = 0 ∨
          (SCM.afterCalls N k).numSolvers < (SCM.afterCalls N k).maxNumContexts := by
        right
        rw [hsol, hmax]
        omega
      simp only [SCM.afterCalls, SCM.mkFresh, if_pos hcond]
      refine ⟨hmax, by rw [hnum], ?_⟩
      rw [hsol]
      omega
    · have hcond : ¬((SCM.afterCalls N k).maxNumContexts = 0 ∨
          (SCM.afterCalls N k).numSolvers < (SCM.afterCalls N k).maxNumContexts) := by
        rintro (h0 | hlt)
        · rw [hmax] at h0
          omega
        · rw [hsol, hmax] at hlt
          omega
      simp only [SCM.afterCalls, SCM.mkFresh, if_neg hcond]
      refine ⟨hmax, by rw [hnum], ?_⟩
      rw [hsol]
      omega

/-- C7: with a positive bound `N`, the pool never holds more than `N`
factories; each of the first `N` calls to `mk_fresh` allocates a fresh
factory (the `k`-th at index `k-1`), and every later call `k` allocates
nothing and reuses the factory at index `(k-1) mod N`. -/
theorem mk_fresh_pool_spec (N k : Nat) (hN : 0 < N) (hk : 1 ≤ k) :
    (SCM.afterCalls N k).numSolvers = min k N ∧
    (SCM.afterCalls N k).numSolvers ≤ N ∧
    (k ≤ N → SCM.callResult N k = (true, k - 1)) ∧
    (N < k → SCM.callResult N k = (false, (k - 1) % N)) := by
  obtain ⟨hmax, hnum, hsol⟩ := scm_state_after N hN (k - 1)
  obtain ⟨_, _, hsol'⟩ := scm_state_after N hN k
  refine ⟨hsol', by rw [hsol']; omega, ?_, ?_⟩
  · intro hkN
    have hcond : (SCM.afterCalls N (k - 1)).maxNumContexts = 0 ∨
        (SCM.afterCalls N (k - 1)).numSolvers < (SCM.afterCalls N (k - 1)).maxNumContexts := by
      right
      rw [hsol, hmax]
      omega
    simp only [SCM.callResult, SCM.mkFresh, if_pos hcond]
    rw [hsol]
    have : min (k - 1) N = k - 1 := by omega
    rw [this]
  · intro hNk
    have hcond : ¬((SCM.afterCalls N (k - 1)).maxNumContexts = 0 ∨
        (SCM.afterCalls N (k - 1)).numSolvers < (SCM.afterCalls N (k - 1)).maxNumContexts) := by
      rintro (h0 | hlt)
      · rw [hmax] at h0
        omega
      · rw [hsol, hmax] at hlt
        omega
    simp only [SCM.callResult, SCM.mkFresh, if_neg hcond]
    rw [hnum, hmax]
    simp

/-- C7 witness: with bound 2, after three calls the pool holds two
factories; the third call allocates nothing and reuses the factory at
index `(3-1) mod 2`. -/
theorem mk_fresh_pool_spec_witness :
    (SCM.afterCalls 2 3).numSolvers = min 3 2 ∧
    (SCM.afterCalls 2 3).numSolvers ≤ 2 ∧
    (3 ≤ 2 → SCM.callResult 2 3 = (true, 2)) ∧
    (2 < 3 → SCM.callResult 2 3 = (false, 2 % 2)) :=
  mk_fresh_pool_spec 2 3 (by decide) (by decide)

/-- C8 (code bug): between two application terms `term_lt` never consults
the size of the second term — the source reads `get_num_exprs` from `t1`
on both lines — so two applications compare as unordered even when the
first has strictly fewer subexpressions, contradicting the source's own
comment "prefer smaller expressions over larger ones" and the claimed
size tie-break. -/
theorem term_lt_size_bug :
    term_lt ⟨1, false, 10, 2⟩ ⟨2, false, 11, 3⟩ = false ∧
    term_lt ⟨2, false, 11, 3⟩ ⟨1, false, 10, 2⟩ = false ∧
    (⟨1, false, 10, 2⟩ : TermData).numExprs < (⟨2, false, 11, 3⟩ : TermData).numExprs := by
  decide

/-- C2 counterexample: in a run where a pob at (level 0, depth 1) is
pushed after a pob at (level 1, depth 0) has already been dequeued, the
second dequeue returns a strictly smaller (level, depth) pair, so
obligations are not always dequeued in non-decreasing (level, depth)
order across a run with interleaved pushes. -/
theorem queue_pop_order_counterexample :
    runQueue [QOp.push ⟨1, 0⟩, QOp.pop, QOp.push ⟨0, 1⟩, QOp.pop] [] =
      [⟨1, 0⟩, ⟨0, 1⟩] ∧
    pob_lt ⟨0, 1⟩ ⟨1, 0⟩ = true := by
  decide

/-- No element offered to `selectMin` is strictly below the selected
minimum. -/
theorem selectMin_not_lt (l : List OPob) :
    ∀ p x : OPob, (x = p ∨ x ∈ l) → pob_lt x (selectMin p l).1 = false := by
  induction l with
  | nil =>
    intro p x hx
    rcases hx with rfl | h
    · simp [selectMin, pob_lt]
    · cases h
  | cons q qs ih =>
    intro p x hx
    by_cases hqp : pob_lt q p = true
    · have hm : (selectMin p (q :: qs)).1 = (selectMin q qs).1 := by
        simp [selectMin, hqp]
      rw [hm]
      rcases hx with rfl | hx
      · have hq := ih q q (Or.inl rfl)
        simp only [pob_lt, decide_eq_true_eq, decide_eq_false_iff_not] at hqp hq ⊢
        omega
      · exact ih q x (List.mem_cons.mp hx)
    · have hqp' : pob_lt q p = false := Bool.eq_false_iff.mpr hqp
      have hm : (selectMin p (q :: qs)).1 = (selectMin p qs).1 := by
        simp [selectMin, hqp']
      rw [hm]
      rcases hx with rfl | hx
      · exact ih x x (Or.inl rfl)
      · rcases List.mem_cons.mp hx with rfl | hxs
        · have hp := ih p p (Or.inl rfl)
          simp only [pob_lt, decide_eq_true_eq, decide_eq_false_iff_not] at hqp' hp ⊢
          omega
        · exact ih p x (Or.inr hxs)

/-- The element selected by `selectMin` is among the offered elements. -/
theorem selectMin_fst_mem (l : List OPob) :
    ∀ p : OPob, (selectMin p l).1 = p ∨ (selectMin p l).1 ∈ l := by
  induction l with
  | nil => intro p; exact Or.inl rfl
  | cons q qs ih =>
    intro p
    by_cases hqp : pob_lt q p = true
    · have hm : (selectMin p (q :: qs)).1 = (selectMin q qs).1 := by
        simp [selectMin, hqp]
      rw [hm]
      rcases ih q with h | h
      · exact Or.inr (by rw [h]; exact List.mem_cons_self q qs)
      · exact Or.inr (List.mem_cons_of_mem q h)
    · have hqp' : pob_lt q p = false := Bool.eq_false_iff.mpr hqp
      have hm : (selectMin p (q :: qs)).1 = (selectMin p qs).1 := by
        simp [selectMin, hqp']
      rw [hm]
      rcases ih p with h | h
      · exact Or.inl h
      · exact Or.inr (List.mem_cons_of_mem q h)

/-- The remainder left by `selectMin` is a sublist of the offered
elements. -/
theorem selectMin_snd_subset (l : List OPob) :
    ∀ p x : OPob, x ∈ (selectMin p l).2 → x = p ∨ x ∈ l := by
  induction l with
  | nil =>
    intro p x hx
    simp [selectMin] at hx
  | cons q qs ih =>
    intro p x hx
    by_cases hqp : pob_lt q p = true
    · have hm : (selectMin p (q :: qs)).2 = p :: (selectMin q qs).2 := by
        simp [selectMin, hqp]
      rw [hm] at hx
      rcases List.mem_cons.mp hx with rfl | hx'
      · exact Or.inl rfl
      · rcases ih q x hx' with rfl | h
        · exact Or.inr (List.mem_cons_self x qs)
        · exact Or.inr (List.mem_cons_of_mem q h)
    · have hqp' : pob_lt q p = false := Bool.eq_false_iff.mpr hqp
      have hm : (selectMin p (q :: qs)).2 = q :: (selectMin p qs).2 := by
        simp [selectMin, hqp']
      rw [hm] at hx
      rcases List.mem_cons.mp hx with rfl | hx'
      · exact Or.inr (List.mem_cons_self x qs)
      · rcases ih p x hx' with rfl | h
        · exact Or.inl rfl
        · exact Or.inr (List.mem_cons_of_mem q h)

/-- C2 (amended): each dequeue returns a least element of the current
queue contents under the (level, depth) lexicographic order, so between
two consecutive dequeues with no intervening push the second pob is never
strictly below the first — the dequeued (level, depth) pairs are
non-decreasing as long as nothing is pushed in between. -/
theorem queue_pop_order_amended (q r1 r2 : List OPob) (m1 m2 : OPob)
    (h1 : popMin q = some (m1, r1)) (h2 : popMin r1 = some (m2, r2)) :
    pob_lt m2 m1 = false := by
  cases q with
  | nil => simp [popMin] at h1
  | cons h t =>
    simp only [popMin, Option.some.injEq] at h1
    have hfst : (selectMin h t).1 = m1 := by rw [h1]
    have hsnd : (selectMin h t).2 = r1 := by rw [h1]
    cases r1 with
    | nil => simp [popMin] at h2
    | cons h' t' =>
      simp only [popMin, Option.some.injEq] at h2
      have hm2 : m2 ∈ h' :: t' := by
        have := selectMin_fst_mem t' h'
        rw [h2] at this
        rcases this with rfl | hmem
        · exact List.mem_cons_self _ _
        · exact List.mem_cons_of_mem _ hmem
      have hm2q : m2 = h ∨ m2 ∈ t := by
        apply selectMin_snd_subset t h
        rw [hsnd]
        exact hm2
      rw [← hfst]
      exact selectMin_not_lt t h m2 hm2q

/-- C2 witness: on the queue holding (1,1) and (0,0), the first dequeue
returns (0,0) and the second (1,1), which is not below the first. -/
theorem queue_pop_order_amended_witness :
    pob_lt ⟨1, 1⟩ ⟨0, 0⟩ = false :=
  queue_pop_order_amended [⟨1, 1⟩, ⟨0, 0⟩] [⟨1, 1⟩] [] ⟨0, 0⟩ ⟨1, 1⟩
    (by decide) (by decide)

/-- C3: the unknown oracle answer is never coerced: whenever one of the
oracle answers actually consumed by the solve loop is `unknown`, the
overall verdict is `unknown`, never sat or unsat; in particular an
`unknown` on the very first consulted query makes the overall result
`unknown`. -/
theorem solve_unknown_propagates (fuel : Nat) (q : List SPob) (ans : List LB)
    (h : LB.u ∈ ans.take (solveLoop fuel q ans).2) :
    (solveLoop fuel q ans).1 = LB.u := by
  induction fuel generalizing q ans with
  | zero => rfl
  | succ fuel ih =>
    cases q with
    | nil => simp [solveLoop] at h
    | cons p t =>
      cases ans with
      | nil => rfl
      | cons a rest =>
        cases a with
        | u => rfl
        | f =>
          simp only [solveLoop] at h ⊢
          rw [List.take_succ_cons] at h
          rcases List.mem_cons.mp h with hfu | h'
          · cases hfu
          · exact ih t rest h'
        | t =>
          by_cases hl : p.level = 0
          · simp only [solveLoop, if_pos hl] at h ⊢
            simp at h
          · simp only [solveLoop, if_neg hl] at h ⊢
            rw [List.take_succ_cons] at h
            rcases List.mem_cons.mp h with hfu | h'
            · cases hfu
            · exact ih _ rest h'

/-- C3 witness: with the oracle forced to answer `unknown` on the first
query about a pending obligation, the overall verdict is `unknown`. -/
theorem solve_unknown_propagates_witness :
    (solveLoop 1 [⟨1, 0⟩] [LB.u]).1 = LB.u :=
  solve_unknown_propagates 1 [⟨1, 0⟩] [LB.u] (by decide)

/-- Adding a lemma only strengthens every frame: a state satisfying a
frame of the extended frame set satisfies the same frame of the original
one. -/
theorem frameAt_mono_add {σ : Type} (pt : PredTransformer σ) (lm0 : SLemma σ)
    (l : Nat) (s : σ) (h : frameAt (addLemma pt lm0) l s) : frameAt pt l s := by
  intro lm hmem hlvl
  exact h lm (List.mem_cons_of_mem _ hmem) hlvl

/-- Every lemma of a frame set survives a level raise with the same
predicate and an equal or higher level. -/
theorem raiseAt_entry {σ : Type} :
    ∀ (fs : List (SLemma σ)) (i : Nat) (lm : SLemma σ), lm ∈ fs →
      ∃ lm', lm' ∈ raiseAt fs i ∧ lm'.pred = lm.pred ∧ lm.lvl ≤ lm'.lvl := by
  intro fs
  induction fs with
  | nil => intro i lm h; cases h
  | cons f fs ih =>
    intro i lm hmem
    cases i with
    | zero =>
      rcases List.mem_cons.mp hmem with rfl | hmem'
      · exact ⟨⟨lm.pred, lm.lvl + 1⟩, List.mem_cons_self _ _, rfl, Nat.le_succ _⟩
      · exact ⟨lm, List.mem_cons_of_mem _ hmem', rfl, le_refl _⟩
    | succ i =>
      rcases List.mem_cons.mp hmem with rfl | hmem'
      · exact ⟨lm, List.mem_cons_self _ _, rfl, le_refl _⟩
      · obtain ⟨lm', hmem'', hpred, hlvl⟩ := ih i lm hmem'
        exact ⟨lm', List.mem_cons_of_mem _ hmem'', hpred, hlvl⟩

/-- Raising a lemma's level only strengthens every frame. -/
theorem frameAt_mono_raise {σ : Type} (pt : PredTransformer σ) (i : Nat)
    (l : Nat) (s : σ) (h : frameAt (propagateAt pt i) l s) : frameAt pt l s := by
  intro lm hmem hlvl
  obtain ⟨lm', hmem', hpred, hlvl'⟩ := raiseAt_entry pt.frames i lm hmem
  have := h lm' hmem' (le_trans hlvl hlvl')
  rw [hpred] at this
  exact this

/-- Refutation-soundness of a lemma is preserved by any change that keeps
the initial condition and the transition relation and only strengthens
frames. -/
theorem soundLemma_mono {σ : Type} {pt pt' : PredTransformer σ}
    (hinit : pt'.init = pt.init) (htrans : pt'.trans = pt.trans)
    (hframe : ∀ l s, frameAt pt' l s → frameAt pt l s)
    {lm : SLemma σ} (h : soundLemma pt lm) : soundLemma pt' lm := by
  cases hl : lm.lvl with
  | zero =>
    simp only [soundLemma, hl] at h ⊢
    intro s hs
    rw [hinit] at hs
    exact h s hs
  | succ l =>
    simp only [soundLemma, hl] at h ⊢
    intro s s' hf ht
    rw [htrans] at ht
    exact h s s' (hframe l s hf) ht

/-- Membership in a raised frame set: each member either was already
present or is the lemma at the raised position with its level bumped by
one. -/
theorem mem_raiseAt {σ : Type} :
    ∀ (fs : List (SLemma σ)) (i : Nat) (lm' : SLemma σ), lm' ∈ raiseAt fs i →
      lm' ∈ fs ∨ ∃ lm, fs.get? i = some lm ∧ lm'.pred = lm.pred ∧ lm'.lvl = lm.lvl + 1 := by
  intro fs
  induction fs with
  | nil => intro i lm' h; cases h
  | cons f fs ih =>
    intro i lm' hmem
    cases i with
    | zero =>
      rcases List.mem_cons.mp hmem with rfl | hmem'
      · exact Or.inr ⟨f, rfl, rfl, rfl⟩
      · exact Or.inl (List.mem_cons_of_mem _ hmem')
    | succ i =>
      rcases List.mem_cons.mp hmem with rfl | hmem'
      · exact Or.inl (List.mem_cons_self _ _)
      · rcases ih i lm' hmem' with hmem'' | ⟨lm, hget, hpred, hlvl⟩
        · exact Or.inl (List.mem_cons_of_mem _ hmem'')
        · exact Or.inr ⟨lm, hget, hpred, hlvl⟩

/-- C1: the lemma soundness invariant is preserved by both lemma-adding
operations: committing a lemma that is refutation-sound at its recorded
level keeps every committed lemma refutation-sound, and raising the level
of a committed lemma whose inductiveness at the next level has been
re-proved against the current frames (the propagation success condition)
keeps every committed lemma refutation-sound. -/
theorem lemma_soundness_invariant {σ : Type} (pt : PredTransformer σ)
    (hs : soundFrames pt) :
    (∀ lm, soundLemma pt lm → soundFrames (addLemma pt lm)) ∧
    (∀ i lm, pt.frames.get? i = some lm →
      (∀ s s', frameAt pt lm.lvl s → pt.trans s s' = true → lm.pred s' = true) →
      soundFrames (propagateAt pt i)) := by
  constructor
  · intro lm0 h0 lm hmem
    have hmono : ∀ l s, frameAt (addLemma pt lm0) l s → frameAt pt l s :=
      frameAt_mono_add pt lm0
    rcases List.mem_cons.mp hmem with rfl | hmem'
    · exact @soundLemma_mono σ pt (addLemma pt lm) rfl rfl hmono lm h0
    · exact @soundLemma_mono σ pt (addLemma pt lm0) rfl rfl hmono lm (hs lm hmem')
  · intro i lm hget hind lm' hmem'
    have hmono : ∀ l s, frameAt (propagateAt pt i) l s → frameAt pt l s :=
      frameAt_mono_raise pt i
    rcases mem_raiseAt pt.frames i lm' hmem' with hmem'' | ⟨lm0, hget0, hpred, hlvl⟩
    · exact @soundLemma_mono σ pt (propagateAt pt i) rfl rfl hmono lm' (hs lm' hmem'')
    · rw [hget] at hget0
      injection hget0 with hget0
      subst hget0
      simp only [soundLemma, hlvl]
      intro s s' hf ht
      rw [hpred]
      exact hind s s' (hmono lm.lvl s hf) ht

/-- The concrete relation `ptW` satisfies the lemma soundness
invariant. -/
theorem ptW_sound : soundFrames ptW := by
  intro lm hmem
  simp only [ptW, List.mem_singleton] at hmem
  subst hmem
  intro s _
  rfl

/-- C1 witness: the preservation theorem instantiated at the concrete
relation `ptW` over the state space `Bool`. -/
theorem lemma_soundness_invariant_witness :
    (∀ lm, soundLemma ptW lm → soundFrames (addLemma ptW lm)) ∧
    (∀ i lm, ptW.frames.get? i = some lm →
      (∀ s s', frameAt ptW lm.lvl s → ptW.trans s s' = true → lm.pred s' = true) →
      soundFrames (propagateAt ptW i)) :=
  lemma_soundness_invariant ptW ptW_sound

/-- A traversal that reaches its stop is what the fuel-bounded `ringAux`
computes, for any fuel at least the traversal length. -/
theorem ringAux_of_trav {nx : Nat → Nat} {stop cur : Nat} {L : List Nat}
    (h : Trav nx stop cur L) :
    ∀ fuel, L.length ≤ fuel → ringAux nx stop fuel cur = L := by
  induction h with
  | done =>
    intro fuel _
    cases fuel with
    | zero => rfl
    | succ fuel => simp [ringAux]
  | step hne _ ih =>
    intro fuel hlen
    cases fuel with
    | zero => simp at hlen
    | succ fuel =>
      rw [List.length_cons] at hlen
      simp only [ringAux, if_neg hne]
      rw [ih fuel (by omega)]

/-- A traversal is unaffected by changing the successor function outside
the visited nodes. -/
theorem trav_ext {nx nx' : Nat → Nat} {stop cur : Nat} {L : List Nat}
    (h : Trav nx stop cur L) (hagree : ∀ x ∈ L, nx' x = nx x) :
    Trav nx' stop cur L := by
  induction h with
  | done => exact Trav.done
  | step hne htail ih =>
    refine Trav.step hne ?_
    rw [hagree _ (List.mem_cons_self _ _)]
    exact ih fun x hx => hagree x (List.mem_cons_of_mem _ hx)

/-- Concatenation of traversals: a walk that reaches `s` while avoiding
`s'`, followed by a walk from `s`'s successor that reaches `s'`, is a walk
to `s'` visiting the first trail, then `s`, then the second trail. -/
theorem trav_glue {nx : Nat → Nat} {s s' cur : Nat} {L M : List Nat}
    (h1 : Trav nx s cur L) (hne : ∀ x ∈ L, x ≠ s') (hss : s ≠ s')
    (h2 : Trav nx s' (nx s) M) : Trav nx s' cur (L ++ s :: M) := by
  induction h1 with
  | done => exact Trav.step hss h2
  | step hcur htail ih =>
    refine Trav.step (hne _ (List.mem_cons_self _ _)) ?_
    exact ih fun x hx => hne x (List.mem_cons_of_mem _ hx)

/-- A duplicate-free list of naturals below `n` has length at most `n`. -/
theorem nodup_bounded_length_le (l : List Nat) (n : Nat)
    (hnd : l.Nodup) (hlt : ∀ y ∈ l, y < n) : l.length ≤ n := by
  have h1 : l.toFinset.card = l.length := List.toFinset_card_of_nodup hnd
  have h2 : l.toFinset ⊆ Finset.range n := by
    intro y hy
    rw [List.mem_toFinset] at hy
    exact Finset.mem_range.mpr (hlt y hy)
  have h3 := Finset.card_le_card h2
  rw [h1, Finset.card_range] at h3
  exact h3

/-- On a well-formed ring description, the fuel-`n` ring traversal of a
root returns exactly the described class list. -/
theorem ring_eq_of_spec (g : TG) (r : Nat) {L : List Nat}
    (htrav : Trav g.next r (g.next r) L) (hnd : (r :: L).Nodup)
    (hmem : ∀ y, y ∈ r :: L ↔ y < g.n ∧ g.root y = r) :
    g.ring r = r :: L := by
  unfold TG.ring
  congr 1
  apply ringAux_of_trav htrav
  have hlen : (r :: L).length ≤ g.n := by
    apply nodup_bounded_length_le _ _ hnd
    intro y hy
    exact ((hmem y).mp hy).1
  simp only [List.length_cons] at hlen
  omega

/-- Marking and table erasure do not change the dimension, the root, next
and size maps, or the parent lists. -/
theorem markAndErase_fields (ps : List Nat) (g : TG) :
    (markAndErase g ps).n = g.n ∧ (markAndErase g ps).root = g.root ∧
    (markAndErase g ps).next = g.next ∧ (markAndErase g ps).csize = g.csize ∧
    (markAndErase g ps).parents = g.parents := by
  induction ps generalizing g with
  | nil => exact ⟨rfl, rfl, rfl, rfl, rfl⟩
  | cons p ps ih =>
    cases h : g.marked p
    · simp only [markAndErase, h]
      exact ih _
    · simp only [markAndErase, h]
      exact ih g

/-- Marking and table erasure only remove congruence-table entries and
leave the pending queue unchanged. -/
theorem markAndErase_cg_mergeQ (ps : List Nat) (g : TG) :
    (∀ q ∈ (markAndErase g ps).cg, q ∈ g.cg) ∧
    (markAndErase g ps).mergeQ = g.mergeQ := by
  induction ps generalizing g with
  | nil => exact ⟨fun q hq => hq, rfl⟩
  | cons p ps ih =>
    cases h : g.marked p
    · simp only [markAndErase, h]
      obtain ⟨hcg, hq⟩ := ih ({ g with
          marked := fun x => if x = p then true else g.marked x
          cg := g.cg.eraseP (fun q => g.cgEq q p) })
      refine ⟨fun q hq' => ?_, hq⟩
      have := hcg q hq'
      exact (List.eraseP_sublist _).subset this
    · simp only [markAndErase, h]
      exact ih g

/-- Re-inserting parents does not change the dimension, the root, next and
size maps. -/
theorem insertParents_fields (ps : List Nat) (g : TG) (a : Nat) :
    (insertParents g a ps).n = g.n ∧ (insertParents g a ps).root = g.root ∧
    (insertParents g a ps).next = g.next ∧ (insertParents g a ps).csize = g.csize := by
  induction ps generalizing g with
  | nil => exact ⟨rfl, rfl, rfl, rfl⟩
  | cons p ps ih =>
    cases h : g.marked p
    · simp only [insertParents, h]
      exact ih g
    · simp only [insertParents, h]
      exact ih _

/-- Re-inserting a list of valid parents keeps the congruence table, the
parent lists and the pending queue valid. -/
theorem insertParents_valid (ps : List Nat) (g : TG) (a : Nat)
    (hps : ∀ p ∈ ps, p < g.n)
    (hcg : ∀ p ∈ g.cg, p < g.n)
    (hpar : ∀ x, x < g.n → ∀ p ∈ g.parents x, p < g.n)
    (hq : ∀ pr ∈ g.mergeQ, pr.1 < g.n ∧ pr.2 < g.n) :
    (∀ p ∈ (insertParents g a ps).cg, p < g.n) ∧
    (∀ x, x < g.n → ∀ p ∈ (insertParents g a ps).parents x, p < g.n) ∧
    (∀ pr ∈ (insertParents g a ps).mergeQ, pr.1 < g.n ∧ pr.2 < g.n) := by
  induction ps generalizing g with
  | nil => exact ⟨hcg, hpar, hq⟩
  | cons p ps ih =>
    have hp : p < g.n := hps p (List.mem_cons_self _ _)
    have hps' : ∀ p' ∈ ps, p' < g.n := fun p' hp' => hps p' (List.mem_cons_of_mem _ hp')
    cases h : g.marked p
    · simp only [insertParents, h]
      exact ih g hps' hcg hpar hq
    · simp only [insertParents, h]
      apply ih
      · exact hps'
      · -- new cg entries
        intro p' hp'
        by_cases hf : (g.cg.find? (fun q => g.cgEq q p)).isSome
        · simp only [if_pos hf] at hp'
          exact hcg p' hp'
        · simp only [if_neg hf] at hp'
          rcases List.mem_append.mp hp' with hmem | hmem
          · exact hcg p' hmem
          · rw [List.mem_singleton.mp hmem]
            exact hp
      · -- new parent lists
        intro x hx p' hp'
        by_cases hxa : x = a
        · simp only [if_pos hxa] at hp'
          rcases List.mem_append.mp hp' with hmem | hmem
          · exact hpar x hx p' hmem
          · rw [List.mem_singleton.mp hmem]
            exact hp
        · simp only [if_neg hxa] at hp'
          exact hpar x hx p' hp'
      · -- new pending queue
        intro pr hpr
        by_cases hroots : g.root p = g.root ((g.cg.find? (fun q => g.cgEq q p)).getD p)
        · simp only [if_pos hroots] at hpr
          exact hq pr hpr
        · simp only [if_neg hroots] at hpr
          rcases List.mem_cons.mp hpr with rfl | hmem
          · refine ⟨hp, ?_⟩
            cases hf : g.cg.find? (fun q => g.cgEq q p) with
            | none => simpa [hf] using hp
            | some q =>
              simp only [hf, Option.getD_some]
              exact hcg q (List.mem_of_find?_eq_some hf)
          · exact hq pr hmem

/-- Field characterization of the splice step: the dimension is kept; the
root of every member of the absorbed ring is redirected to the survivor;
the successors of the two roots are swapped; the survivor's class size
becomes the sum and the absorbed one is zeroed; parent lists are
unchanged, congruence-table entries only disappear, the pending queue is
unchanged. -/
theorem preMerge_fields (g : TG) (a b : Nat) :
    (g.preMerge a b).n = g.n ∧
    (g.preMerge a b).root = (fun x => if x ∈ g.ring b then a else g.root x) ∧
    (g.preMerge a b).next =
      (fun x => if x = a then g.next b else if x = b then g.next a else g.next x) ∧
    (g.preMerge a b).csize =
      (fun x => if x = a then g.csize a + g.csize b else if x = b then 0 else g.csize x) ∧
    (g.preMerge a b).parents = g.parents ∧
    (∀ q ∈ (g.preMerge a b).cg, q ∈ g.cg) ∧
    (g.preMerge a b).mergeQ = g.mergeQ := by
  obtain ⟨hn, hroot, hnext, hcsize, hpar⟩ := markAndErase_fields (g.parents b) g
  obtain ⟨hcg, hq⟩ := markAndErase_cg_mergeQ (g.parents b) g
  have hring : (markAndErase g (g.parents b)).ring b = g.ring b := by
    unfold TG.ring
    rw [hn, hnext]
  simp only [TG.preMerge]
  refine ⟨hn, ?_, ?_, ?_, hpar, hcg, hq⟩
  · rw [hring, hroot]
  · rw [hnext]
  · rw [hcsize]

/-- Field characterization of the whole union step: identical to the
splice step on dimension, roots, successors and class sizes, since parent
re-insertion does not touch them. -/
theorem mergeCore_fields (g : TG) (a b : Nat) :
    (g.mergeCore a b).n = g.n ∧
    (g.mergeCore a b).root = (fun x => if x ∈ g.ring b then a else g.root x) ∧
    (g.mergeCore a b).next =
      (fun x => if x = a then g.next b else if x = b then g.next a else g.next x) ∧
    (g.mergeCore a b).csize =
      (fun x => if x = a then g.csize a + g.csize b else if x = b then 0 else g.csize x) := by
  obtain ⟨hn, hroot, hnext, hcsize⟩ :=
    insertParents_fields ((g.preMerge a b).parents a) (g.preMerge a b) a
  obtain ⟨hn', hroot', hnext', hcsize', _, _, _⟩ := preMerge_fields g a b
  unfold TG.mergeCore
  exact ⟨hn.trans hn', hroot.trans hroot', hnext.trans hnext', hcsize.trans hcsize'⟩

/-- The union step keeps the congruence table, parent lists and pending
queue valid. -/
theorem mergeCore_valid (g : TG) (a b : Nat) (ha : a < g.n)
    (hpar : ∀ x, x < g.n → ∀ p ∈ g.parents x, p < g.n)
    (hcg : ∀ p ∈ g.cg, p < g.n)
    (hq : ∀ pr ∈ g.mergeQ, pr.1 < g.n ∧ pr.2 < g.n) :
    (∀ p ∈ (g.mergeCore a b).cg, p < g.n) ∧
    (∀ x, x < g.n → ∀ p ∈ (g.mergeCore a b).parents x, p < g.n) ∧
    (∀ pr ∈ (g.mergeCore a b).mergeQ, pr.1 < g.n ∧ pr.2 < g.n) := by
  obtain ⟨hn', _, _, _, hpar', hcg', hq'⟩ := preMerge_fields g a b
  have hvalid := insertParents_valid ((g.preMerge a b).parents a) (g.preMerge a b) a
    (by rw [hpar', hn']; exact hpar a ha)
    (by rw [hn']; intro p hp; exact hcg p (hcg' p hp))
    (by rw [hpar', hn']; exact hpar)
    (by rw [hq', hn']; exact hq)
  rw [hn'] at hvalid
  exact hvalid

/-- Pointwise root map after the union step on a well-formed state: every
member of the absorbed class is redirected to the survivor, everything
else keeps its root. -/
theorem mergeCore_root_eq (g : TG) (hwf : g.WF) (a b : Nat) (hb : b < g.n)
    (hrb : g.root b = b) (x : Nat) :
    (g.mergeCore a b).root x = if x < g.n ∧ g.root x = b then a else g.root x := by
  obtain ⟨L, htrav, hnd, hmem⟩ := hwf.ring_spec b hb hrb
  have hr := ring_eq_of_spec g b htrav hnd hmem
  obtain ⟨_, hroot, _, _⟩ := mergeCore_fields g a b
  simp only [hroot, hr]
  by_cases hx : x ∈ b :: L
  · rw [if_pos hx, if_pos ((hmem x).mp hx)]
  · rw [if_neg hx, if_neg (fun hc => hx ((hmem x).mpr hc))]

/-- The union step preserves well-formedness: after absorbing the class of
`b` into the class of `a`, roots stay in range and idempotent, and every
root's ring is again a duplicate-free enumeration of its class — the ring
of the survivor being the splice of the two previous rings. -/
theorem wf_mergeCore (g : TG) (hwf : g.WF) (a b : Nat) (ha : a < g.n) (hb : b < g.n)
    (hra : g.root a = a) (hrb : g.root b = b) (hab : a ≠ b) : (g.mergeCore a b).WF := by
  obtain ⟨hn, _, hnext, _⟩ := mergeCore_fields g a b
  obtain ⟨La, htrava, hnda, hmema⟩ := hwf.ring_spec a ha hra
  obtain ⟨Lb, htravb, hndb, hmemb⟩ := hwf.ring_spec b hb hrb
  have hrooteq : ∀ x, (g.mergeCore a b).root x =
      if x < g.n ∧ g.root x = b then a else g.root x :=
    mergeCore_root_eq g hwf a b hb hrb
  have hnexteq : ∀ x, (g.mergeCore a b).next x =
      if x = a then g.next b else if x = b then g.next a else g.next x :=
    fun x => by simp only [hnext]
  have hLa : ∀ x ∈ La, x < g.n ∧ g.root x = a :=
    fun x hx => (hmema x).mp (List.mem_cons_of_mem _ hx)
  have hLb : ∀ x ∈ Lb, x < g.n ∧ g.root x = b :=
    fun x hx => (hmemb x).mp (List.mem_cons_of_mem _ hx)
  have haLa : a ∉ La := (List.nodup_cons.mp hnda).1
  have hbLb : b ∉ Lb := (List.nodup_cons.mp hndb).1
  have hndLa : La.Nodup := (List.nodup_cons.mp hnda).2
  have hndLb : Lb.Nodup := (List.nodup_cons.mp hndb).2
  have hbLa : b ∉ La := by
    intro hx
    have h1 := (hLa b hx).2
    rw [hrb] at h1
    exact hab h1.symm
  have haLb : a ∉ Lb := by
    intro hx
    have h1 := (hLb a hx).2
    rw [hra] at h1
    exact hab h1
  obtain ⟨hvcg, hvpar, hvq⟩ :=
    mergeCore_valid g a b ha hwf.parents_lt hwf.cg_lt hwf.mergeQ_lt
  refine ⟨?_, ?_, ?_, ?_, ?_, ?_, ?_⟩
  · -- root_lt
    intro x hx
    rw [hn] at hx ⊢
    rw [hrooteq x]
    by_cases hc : x < g.n ∧ g.root x = b
    · rw [if_pos hc]; exact ha
    · rw [if_neg hc]; exact hwf.root_lt x hx
  · -- next_lt
    intro x hx
    rw [hn] at hx ⊢
    rw [hnexteq x]
    by_cases h1 : x = a
    · rw [if_pos h1]; exact hwf.next_lt b hb
    · rw [if_neg h1]
      by_cases h2 : x = b
      · rw [if_pos h2]; exact hwf.next_lt a ha
      · rw [if_neg h2]; exact hwf.next_lt x hx
  · -- root_idem
    intro x hx
    rw [hn] at hx
    by_cases hc : x < g.n ∧ g.root x = b
    · rw [hrooteq x, if_pos hc, hrooteq a,
        if_neg (fun h => hab (hra.symm.trans h.2))]
      exact hra
    · rw [hrooteq x, if_neg hc, hrooteq (g.root x)]
      have hidem := hwf.root_idem x hx
      rw [if_neg (fun h => hc ⟨hx, hidem ▸ h.2⟩)]
      exact hidem
  · -- ring_spec
    intro r hr hrr
    rw [hn] at hr
    by_cases hcase : r = a
    · subst hcase
      refine ⟨Lb ++ b :: La, ?_, ?_, ?_⟩
      · -- the traversal of the spliced ring
        have h1 : Trav (g.mergeCore r b).next b (g.next b) Lb := by
          apply trav_ext htravb
          intro x hx
          rw [hnexteq x, if_neg (fun he : x = r => haLb (he ▸ hx)),
            if_neg (fun he : x = b => hbLb (he ▸ hx))]
        have h2 : Trav (g.mergeCore r b).next r (g.next r) La := by
          apply trav_ext htrava
          intro x hx
          rw [hnexteq x, if_neg (fun he : x = r => haLa (he ▸ hx)),
            if_neg (fun he : x = b => hbLa (he ▸ hx))]
        have h3 : (g.mergeCore r b).next b = g.next r := by
          rw [hnexteq b, if_neg (Ne.symm hab), if_pos rfl]
        have h2' : Trav (g.mergeCore r b).next r ((g.mergeCore r b).next b) La := by
          rw [h3]; exact h2
        have h4 : Trav (g.mergeCore r b).next r (g.next b) (Lb ++ b :: La) :=
          trav_glue h1 (fun x hx he => haLb (he ▸ hx)) (Ne.symm hab) h2'
        have h5 : (g.mergeCore r b).next r = g.next b := by
          rw [hnexteq r, if_pos rfl]
        rw [h5]
        exact h4
      · -- the spliced ring has no duplicates
        rw [List.nodup_cons]
        constructor
        · intro hmem'
          rcases List.mem_append.mp hmem' with h | h
          · exact haLb h
          · rcases List.mem_cons.mp h with h' | h'
            · exact hab h'
            · exact haLa h'
        · rw [List.nodup_append]
          refine ⟨hndLb, ?_, ?_⟩
          · rw [List.nodup_cons]; exact ⟨hbLa, hndLa⟩
          · intro x hx hx'
            rcases List.mem_cons.mp hx' with rfl | h'
            · exact hbLb hx
            · have h1 := (hLb x hx).2
              have h2 := (hLa x h').2
              exact hab (h1.symm.trans h2).symm
      · -- the spliced ring is exactly the union of the two classes
        intro y
        rw [hn, hrooteq y]
        constructor
        · intro hy
          rcases List.mem_cons.mp hy with rfl | hy'
          · refine ⟨ha, ?_⟩
            rw [if_neg (fun h => hab (hra.symm.trans h.2))]
            exact hra
          · rcases List.mem_append.mp hy' with h | h
            · obtain ⟨hyn, hyb⟩ := hLb y h
              exact ⟨hyn, by rw [if_pos ⟨hyn, hyb⟩]⟩
            · rcases List.mem_cons.mp h with rfl | h'
              · exact ⟨hb, by rw [if_pos ⟨hb, hrb⟩]⟩
              · obtain ⟨hyn, hya⟩ := hLa y h'
                refine ⟨hyn, ?_⟩
                rw [if_neg (fun hcc => hab (hya.symm.trans hcc.2))]
                exact hya
        · rintro ⟨hyn, hyroot⟩
          by_cases hc : y < g.n ∧ g.root y = b
          · have hyb := (hmemb y).mpr hc
            rcases List.mem_cons.mp hyb with rfl | h
            · exact List.mem_cons_of_mem _
                (List.mem_append.mpr (Or.inr (List.mem_cons_self _ _)))
            · exact List.mem_cons_of_mem _ (List.mem_append.mpr (Or.inl h))
          · rw [if_neg hc] at hyroot
            have hya := (hmema y).mpr ⟨hyn, hyroot⟩
            rcases List.mem_cons.mp hya with rfl | h
            · exact List.mem_cons_self _ _
            · exact List.mem_cons_of_mem _
                (List.mem_append.mpr (Or.inr (List.mem_cons_of_mem _ h)))
    · -- a root other than the survivor: its ring is untouched
      rw [hrooteq r] at hrr
      by_cases hc : r < g.n ∧ g.root r = b
      · rw [if_pos hc] at hrr
        exact absurd hrr.symm hcase
      · rw [if_neg hc] at hrr
        have hrbne : r ≠ b := by
          intro he
          subst he
          exact hc ⟨hr, hrr⟩
        obtain ⟨L, htravr, hndr, hmemr⟩ := hwf.ring_spec r hr hrr
        have hLr : ∀ x ∈ L, x < g.n ∧ g.root x = r :=
          fun x hx => (hmemr x).mp (List.mem_cons_of_mem _ hx)
        refine ⟨L, ?_, hndr, ?_⟩
        · have hagree : ∀ x ∈ L, (g.mergeCore a b).next x = g.next x := by
            intro x hx
            obtain ⟨hxn, hxr⟩ := hLr x hx
            have hxa : x ≠ a := by
              intro he
              rw [he] at hxr
              exact hcase (hra.symm.trans hxr).symm
            have hxb : x ≠ b := by
              intro he
              rw [he] at hxr
              exact hrbne (hrb.symm.trans hxr).symm
            rw [hnexteq x, if_neg hxa, if_neg hxb]
          have h1 := trav_ext htravr hagree
          have h2 : (g.mergeCore a b).next r = g.next r := by
            rw [hnexteq r, if_neg hcase, if_neg hrbne]
          rw [h2]
          exact h1
        · intro y
          rw [hn, hrooteq y, hmemr y]
          constructor
          · rintro ⟨hyn, hyr⟩
            refine ⟨hyn, ?_⟩
            rw [if_neg (fun hcc => hrbne (hyr.symm.trans hcc.2))]
            exact hyr
          · rintro ⟨hyn, hyroot⟩
            by_cases hcc : y < g.n ∧ g.root y = b
            · rw [if_pos hcc] at hyroot
              exact absurd hyroot.symm hcase
            · rw [if_neg hcc] at hyroot
              exact ⟨hyn, hyroot⟩
  · -- parents_lt
    intro x hx
    rw [hn] at hx
    intro p hp
    rw [hn]
    exact hvpar x hx p hp
  · -- cg_lt
    intro p hp
    rw [hn]
    exact hvcg p hp
  · -- mergeQ_lt
    intro pr hpr
    rw [hn]
    exact hvq pr hpr

/-- A merge of two terms whose roots already coincide returns the state
unchanged. -/
theorem merge_eq_of_same_root (g : TG) (t1 t2 : Nat)
    (h : g.root t1 = g.root t2) : g.merge t1 t2 = g := by
  simp [TG.merge, h]

/-- A merge never changes the number of terms. -/
theorem merge_n (g : TG) (t1 t2 : Nat) : (g.merge t1 t2).n = g.n := by
  simp only [TG.merge]
  by_cases hne : g.root t1 = g.root t2
  · rw [if_pos hne]
  · rw [if_neg hne]
    by_cases hsz : g.csize (g.root t1) > g.csize (g.root t2)
    · rw [if_pos hsz]
      exact (mergeCore_fields g (g.root t2) (g.root t1)).1
    · rw [if_neg hsz]
      exact (mergeCore_fields g (g.root t1) (g.root t2)).1

/-- Pointwise root map of a merge of two terms with distinct roots: every
member of the absorbed class is redirected to the surviving root. -/
theorem merge_root_eq (g : TG) (hwf : g.WF) (t1 t2 : Nat)
    (h1 : t1 < g.n) (h2 : t2 < g.n) (hne : g.root t1 ≠ g.root t2) (x : Nat) :
    (g.merge t1 t2).root x =
      if x < g.n ∧ g.root x = g.absorbed t1 t2 then g.survivor t1 t2
      else g.root x := by
  simp only [TG.merge, TG.survivor, TG.absorbed, if_neg hne]
  by_cases hsz : g.csize (g.root t1) > g.csize (g.root t2)
  · rw [if_pos hsz, if_pos hsz, if_pos hsz]
    exact mergeCore_root_eq g hwf (g.root t2) (g.root t1)
      (hwf.root_lt t1 h1) (hwf.root_idem t1 h1) x
  · rw [if_neg hsz, if_neg hsz, if_neg hsz]
    exact mergeCore_root_eq g hwf (g.root t1) (g.root t2)
      (hwf.root_lt t2 h2) (hwf.root_idem t2 h2) x

/-- A merge of in-range terms preserves well-formedness. -/
theorem wf_merge (g : TG) (hwf : g.WF) (t1 t2 : Nat)
    (h1 : t1 < g.n) (h2 : t2 < g.n) : (g.merge t1 t2).WF := by
  by_cases hne : g.root t1 = g.root t2
  · rw [merge_eq_of_same_root g t1 t2 hne]
    exact hwf
  · simp only [TG.merge, if_neg hne]
    by_cases hsz : g.csize (g.root t1) > g.csize (g.root t2)
    · rw [if_pos hsz]
      exact wf_mergeCore g hwf (g.root t2) (g.root t1)
        (hwf.root_lt t2 h2) (hwf.root_lt t1 h1)
        (hwf.root_idem t2 h2) (hwf.root_idem t1 h1)
        (fun he => hne he.symm)
    · rw [if_neg hsz]
      exact wf_mergeCore g hwf (g.root t1) (g.root t2)
        (hwf.root_lt t1 h1) (hwf.root_lt t2 h2)
        (hwf.root_idem t1 h1) (hwf.root_idem t2 h2)
        hne

/-- Merging never separates terms: two in-range terms with a common root
still share a root after any merge. -/
theorem merge_root_preserve (g : TG) (hwf : g.WF) (s t : Nat)
    (hs : s < g.n) (ht : t < g.n) (x y : Nat) (hx : x < g.n) (hy : y < g.n)
    (hxy : g.root x = g.root y) :
    (g.merge s t).root x = (g.merge s t).root y := by
  by_cases hne : g.root s = g.root t
  · rw [merge_eq_of_same_root g s t hne]
    exact hxy
  · rw [merge_root_eq g hwf s t hs ht hne x, merge_root_eq g hwf s t hs ht hne y]
    by_cases hc : g.root x = g.absorbed s t
    · rw [if_pos ⟨hx, hc⟩, if_pos ⟨hy, hxy ▸ hc⟩]
    · rw [if_neg (fun hcc => hc hcc.2), if_neg (fun hcc => hc (hxy ▸ hcc.2)), hxy]

/-- Dropping pending-queue entries preserves well-formedness. -/
theorem wf_modQueue (g : TG) (hwf : g.WF) (rest : List (Nat × Nat))
    (hsub : ∀ pr ∈ rest, pr ∈ g.mergeQ) : TG.WF { g with mergeQ := rest } :=
  ⟨hwf.root_lt, hwf.next_lt, hwf.root_idem, hwf.ring_spec, hwf.parents_lt,
   hwf.cg_lt, fun pr hpr => hwf.mergeQ_lt pr (hsub pr hpr)⟩

/-- Flushing the pending queue never changes the number of terms. -/
theorem mergeFlush_n (fuel : Nat) : ∀ g : TG, (mergeFlush fuel g).n = g.n := by
  induction fuel with
  | zero => intro g; rfl
  | succ fuel ih =>
    intro g
    cases hq : g.mergeQ with
    | nil => simp [mergeFlush, hq]
    | cons pr rest =>
      obtain ⟨s, t⟩ := pr
      simp only [mergeFlush, hq]
      rw [ih, merge_n]

/-- Flushing the pending queue preserves well-formedness. -/
theorem mergeFlush_wf (fuel : Nat) :
    ∀ g : TG, g.WF → (mergeFlush fuel g).WF := by
  induction fuel with
  | zero => intro g hwf; exact hwf
  | succ fuel ih =>
    intro g hwf
    cases hq : g.mergeQ with
    | nil => simpa [mergeFlush, hq] using hwf
    | cons pr rest =>
      obtain ⟨s, t⟩ := pr
      simp only [mergeFlush, hq]
      have hmem : (s, t) ∈ g.mergeQ := by rw [hq]; exact List.mem_cons_self _ _
      have hwf' : TG.WF { g with mergeQ := rest } :=
        wf_modQueue g hwf rest (fun pr hpr => by rw [hq]; exact List.mem_cons_of_mem _ hpr)
      exact ih _ (wf_merge _ hwf' s t (hwf.mergeQ_lt (s, t) hmem).1
        (hwf.mergeQ_lt (s, t) hmem).2)

/-- Flushing the pending queue never separates terms: two in-range terms
with a common root still share a root after the flush. -/
theorem mergeFlush_root_preserve (fuel : Nat) :
    ∀ g : TG, g.WF → ∀ x y : Nat, x < g.n → y < g.n → g.root x = g.root y →
      (mergeFlush fuel g).root x = (mergeFlush fuel g).root y := by
  induction fuel with
  | zero => intro g _ x y _ _ hxy; exact hxy
  | succ fuel ih =>
    intro g hwf x y hx hy hxy
    cases hq : g.mergeQ with
    | nil => simpa [mergeFlush, hq] using hxy
    | cons pr rest =>
      obtain ⟨s, t⟩ := pr
      simp only [mergeFlush, hq]
      have hmem : (s, t) ∈ g.mergeQ := by rw [hq]; exact List.mem_cons_self _ _
      have hwf' : TG.WF { g with mergeQ := rest } :=
        wf_modQueue g hwf rest (fun pr hpr => by rw [hq]; exact List.mem_cons_of_mem _ hpr)
      have hs := (hwf.mergeQ_lt (s, t) hmem).1
      have ht := (hwf.mergeQ_lt (s, t) hmem).2
      apply ih
      · exact wf_merge _ hwf' s t hs ht
      · rw [merge_n]; exact hx
      · rw [merge_n]; exact hy
      · exact merge_root_preserve _ hwf' s t hs ht x y hx hy hxy

/-- After a merge of two in-range terms, the two terms share a root. -/
theorem merge_roots_joined (g : TG) (hwf : g.WF) (t1 t2 : Nat)
    (h1 : t1 < g.n) (h2 : t2 < g.n) :
    (g.merge t1 t2).root t1 = (g.merge t1 t2).root t2 := by
  by_cases hne : g.root t1 = g.root t2
  · rw [merge_eq_of_same_root g t1 t2 hne]
    exact hne
  · rw [merge_root_eq g hwf t1 t2 h1 h2 hne t1,
      merge_root_eq g hwf t1 t2 h1 h2 hne t2]
    simp only [TG.survivor, TG.absorbed]
    by_cases hsz : g.csize (g.root t1) > g.csize (g.root t2)
    · simp only [if_pos hsz]
      rw [if_pos ⟨h1, True.intro⟩, if_neg (fun hcc => hne hcc.2.symm)]
    · simp only [if_neg hsz]
      rw [if_neg (fun hcc => hne hcc.2), if_pos ⟨h2, True.intro⟩]

/-- C9: the term-graph merge is a congruence-closure union.  On a
well-formed graph with two internalized terms: after `internalize_eq`
(one merge followed by flushing the pending merge queue) the two terms
have the same root; a merge of two terms whose roots already coincide
changes nothing; and a merge of two terms with distinct roots gives the
surviving root a class size equal to the sum of the two previous class
sizes and redirects the root pointer of every member of the absorbed
class to the surviving root. -/
theorem internalize_eq_merge_spec (g : TG) (hwf : g.WF) (t1 t2 : Nat)
    (h1 : t1 < g.n) (h2 : t2 < g.n) :
    ((g.internalizeEq t1 t2).root t1 = (g.internalizeEq t1 t2).root t2) ∧
    (g.root t1 = g.root t2 → g.merge t1 t2 = g) ∧
    (g.root t1 ≠ g.root t2 →
      (g.merge t1 t2).csize (g.survivor t1 t2) =
        g.csize (g.survivor t1 t2) + g.csize (g.absorbed t1 t2) ∧
      ∀ x, x < g.n → g.root x = g.absorbed t1 t2 →
        (g.merge t1 t2).root x = g.survivor t1 t2) := by
  refine ⟨?_, merge_eq_of_same_root g t1 t2, ?_⟩
  · unfold TG.internalizeEq
    apply mergeFlush_root_preserve _ _ (wf_merge g hwf t1 t2 h1 h2)
    · rw [merge_n]; exact h1
    · rw [merge_n]; exact h2
    · exact merge_roots_joined g hwf t1 t2 h1 h2
  · intro hne
    constructor
    · simp only [TG.merge, TG.survivor, TG.absorbed, if_neg hne]
      by_cases hsz : g.csize (g.root t1) > g.csize (g.root t2)
      · rw [if_pos hsz, if_pos hsz, if_pos hsz]
        obtain ⟨_, _, _, hcsize⟩ := mergeCore_fields g (g.root t2) (g.root t1)
        simp only [hcsize]
        simp
      · rw [if_neg hsz, if_neg hsz, if_neg hsz]
        obtain ⟨_, _, _, hcsize⟩ := mergeCore_fields g (g.root t1) (g.root t2)
        simp only [hcsize]
        simp
    · intro x hx hroot
      rw [merge_root_eq g hwf t1 t2 h1 h2 hne x, if_pos ⟨hx, hroot⟩]

/-- The two-class concrete graph `gW` is well-formed. -/
theorem gW_wf : gW.WF := by
  refine ⟨?_, ?_, ?_, ?_, ?_, ?_, ?_⟩
  · intro x hx; exact hx
  · intro x hx; exact hx
  · intro x _; rfl
  · intro r hr _
    refine ⟨[], Trav.done, by simp, ?_⟩
    intro y
    simp only [List.mem_singleton]
    constructor
    · rintro rfl
      exact ⟨hr, rfl⟩
    · rintro ⟨_, hy⟩
      exact hy
  · intro x _ p hp; cases hp
  · intro p hp; cases hp
  · intro pr hpr; cases hpr

/-- C9 witness: the union theorem instantiated at the two-class graph
`gW` and its two terms. -/
theorem internalize_eq_merge_spec_witness :
    ((gW.internalizeEq 0 1).root 0 = (gW.internalizeEq 0 1).root 1) ∧
    (gW.root 0 = gW.root 1 → gW.merge 0 1 = gW) ∧
    (gW.root 0 ≠ gW.root 1 →
      (gW.merge 0 1).csize (gW.survivor 0 1) =
        gW.csize (gW.survivor 0 1) + gW.csize (gW.absorbed 0 1) ∧
      ∀ x, x < gW.n → gW.root x = gW.absorbed 0 1 →
        (gW.merge 0 1).root x = gW.survivor 0 1) :=
  internalize_eq_merge_spec gW gW_wf 0 1 (by decide) (by decide)
